import Mathlib

/-!
Verification of the metrics/plotting module in CustomDataset/metrics.py.

Labels are modelled as integers (List Int), scores as rationals (List ℚ or
List (List ℚ) for a score matrix).  Fallible indexing (numpy style
y_score[:, i], metrics_history[0], m[key][idx]) is modelled with Except,
and floating-point not-a-number values arising from 0/0 in the confusion
matrix normalization are modelled as the none case of Option ℚ.
-/

namespace MedViT

/-- A run of the Except monad over a list, modelling a Python loop that can
raise (e.g. an IndexError) at any element.  Defined by structural recursion
so that proofs can proceed by induction on the list. -/
def mapE {α β : Type} (f : α → Except String β) : List α → Except String (List β)
  | [] => .ok []
  | x :: xs => do
    let y ← f x
    let ys ← mapE f xs
    pure (y :: ys)

/-- Checked list indexing, modelling a Python IndexError on out-of-range
subscripts. -/
def listIdx {α : Type} (l : List α) (i : Nat) : Except String α :=
  match l.get? i with
  | some v => .ok v
  | none => .error "IndexError"

/-- Model of np.unique applied to a label vector: the sorted list of distinct
values. -/
def uniqueVals (l : List Int) : List Int :=
  List.insertionSort (· ≤ ·) l.dedup

/-- Number of distinct values in a binary 0/1 vector, modelling
len(np.unique(v)) in the degenerate-class guards. -/
def uniqueCountNat (l : List Nat) : Nat :=
  l.dedup.length

/-- Embedding of metrics.py check_pred.  The source loop reuses the name of
the class argument as its loop counter, so the comparison is against the
running index, not against the class argument; the embedding reproduces
that faithfully (the class argument is unused). -/
def check_pred (y_true : List Int) (c : Int) : List Nat :=
  (List.range y_true.length).map (fun i => if y_true.getD i 0 = (i : Int) then 1 else 0)

/-- Number of occurrences of the value c in a label vector. -/
def countEq (c : Int) : List Int → Nat
  | [] => 0
  | x :: xs => (if x = c then 1 else 0) + countEq c xs

/-- True-positive count for class c: aligned samples whose truth and
prediction both equal c. -/
def tpCount (c : Int) : List Int → List Int → Nat
  | t :: ts, p :: ps => (if t = c ∧ p = c then 1 else 0) + tpCount c ts ps
  | _, _ => 0

/-- Per-class precision with the zero-division-as-zero convention. -/
def precisionAt (y_true y_pred : List Int) (c : Int) : ℚ :=
  let pp := countEq c y_pred
  if pp = 0 then 0 else (tpCount c y_true y_pred : ℚ) / pp

/-- Per-class recall with the zero-division-as-zero convention. -/
def recallAt (y_true y_pred : List Int) (c : Int) : ℚ :=
  let tc := countEq c y_true
  if tc = 0 then 0 else (tpCount c y_true y_pred : ℚ) / tc

/-- Per-class F1, the harmonic mean of precision and recall, zero when both
vanish. -/
def f1At (y_true y_pred : List Int) (c : Int) : ℚ :=
  let p := precisionAt y_true y_pred c
  let r := recallAt y_true y_pred c
  if p + r = 0 then 0 else 2 * p * r / (p + r)

/-- Model of the external sklearn function precision_recall_fscore_support,
from its documented behavior (the repository only calls it): per-class
precision, recall and F1 over the given label list, or over the sorted
distinct labels of both vectors when labels is absent. -/
def precision_recall_fscore_support (y_true y_pred : List Int)
    (labels : Option (List Int)) : List ℚ × List ℚ × List ℚ :=
  let ls := labels.getD (uniqueVals (y_true ++ y_pred))
  (ls.map (precisionAt y_true y_pred), ls.map (recallAt y_true y_pred),
    ls.map (f1At y_true y_pred))

/-- Weight of one (positive, negative) score pair in the rank statistic:
1 when ordered correctly, 1/2 on a tie, 0 otherwise. -/
def rocPairWeight (sp sn : ℚ) : ℚ :=
  if sn < sp then 1 else if sp = sn then 1 / 2 else 0

/-- Scores of the samples whose binary label equals v, keeping alignment
between the label vector and the score column. -/
def scoresOf (v : Nat) : List Nat → List ℚ → List ℚ
  | b :: bs, s :: ss =>
      if b = v then s :: scoresOf v bs ss else scoresOf v bs ss
  | _, _ => []

/-- Model of the external sklearn composition auc of roc_curve on a binary
ground-truth vector, from its documented behavior: the area under the ROC
curve equals the fraction of (positive, negative) pairs whose scores are
ordered correctly, counting ties at half weight. -/
def rocAUC (yb : List Nat) (score : List ℚ) : ℚ :=
  let pos := scoresOf 1 yb score
  let neg := scoresOf 0 yb score
  (pos.map (fun sp => (neg.map (rocPairWeight sp)).sum)).sum
    / ((pos.length : ℚ) * (neg.length : ℚ))

/-- Column i of a score matrix, modelling the numpy slice with an
IndexError when a row is too short. -/
def scoreColumn (y_score : List (List ℚ)) (i : Nat) : Except String (List ℚ) :=
  mapE (fun row => listIdx row i) y_score

/-- The metrics dictionary returned by calculate_metrics; the auc key is
present only when a score matrix was supplied. -/
structure Metrics where
  precision : List ℚ
  «recall» : List ℚ
  f1 : List ℚ
  auc : Option (List ℚ)
deriving DecidableEq

instance {ε α : Type} [DecidableEq ε] [DecidableEq α] : DecidableEq (Except ε α) :=
  fun a b =>
    match a, b with
    | .ok x, .ok y =>
        if h : x = y then .isTrue (by rw [h]) else .isFalse (by simp [h])
    | .error e, .error f =>
        if h : e = f then .isTrue (by rw [h]) else .isFalse (by simp [h])
    | .ok _, .error _ => .isFalse (by simp)
    | .error _, .ok _ => .isFalse (by simp)

/-- The AUC loop of calculate_metrics: one entry per index below the number
of distinct ground-truth values, a real AUC when the (buggy) binarization
is not single-valued and the 0.0 sentinel otherwise. -/
def calc_auc_list (y_true : List Int) (ys : List (List ℚ)) : Except String (List ℚ) :=
  mapE (fun (i : Nat) =>
    let yb := check_pred y_true (Int.ofNat i)
    if uniqueCountNat yb > 1 then
      Except.map (fun col => rocAUC yb col) (scoreColumn ys i)
    else
      .ok 0) (List.range (uniqueVals y_true).length)

/-- Embedding of metrics.py calculate_metrics. -/
def calculate_metrics (y_true y_pred : List Int) (y_score : Option (List (List ℚ)))
    (labels : Option (List Int)) : Except String Metrics :=
  let prf := precision_recall_fscore_support y_true y_pred labels
  match y_score with
  | none => .ok ⟨prf.1, prf.2.1, prf.2.2, none⟩
  | some ys =>
      Except.map (fun roc => ⟨prf.1, prf.2.1, prf.2.2, some roc⟩)
        (calc_auc_list y_true ys)

/-- Filesystem state for the directory-creation glue: the list of
directories that exist. -/
def os_path_exists (fs : List String) (d : String) : Bool :=
  d ∈ fs

/-- Model of the external os.makedirs call, from its documented behavior:
creates the directory, raising FileExistsError when it already exists. -/
def os_makedirs (fs : List String) (d : String) : Except String (List String) :=
  if d ∈ fs then .error "FileExistsError" else .ok (d :: fs)

/-- Embedding of metrics.py ensure_dir: create the directory only when the
existence test fails. -/
def ensure_dir (fs : List String) (d : String) : Except String (List String) :=
  if os_path_exists fs d then .ok fs else os_makedirs fs d

/-- Embedding of the curve-drawing loop of plot_roc_curve: the list of
(class index, AUC) pairs for which a labeled curve is drawn; a class is
drawn only when the guard on its (buggy) binarized ground truth sees more
than one distinct value. -/
def plot_roc_curve_curves (y_true : List Int) (ys : List (List ℚ)) :
    Except String (List (Nat × ℚ)) :=
  Except.map (fun l => l.filterMap id)
    (mapE (fun (i : Nat) =>
      let yb := check_pred y_true (Int.ofNat i)
      if uniqueCountNat yb > 1 then
        Except.map (fun col => some (i, rocAUC yb col))
          (scoreColumn ys i)
      else
        .ok none) (List.range (uniqueVals y_true).length))

/-- Labels of the confusion matrix: the sorted distinct values occurring in
either vector, as the external sklearn confusion_matrix infers them. -/
def cmLabels (y_true y_pred : List Int) : List Int :=
  uniqueVals (y_true ++ y_pred)

/-- Count of aligned samples with truth t and prediction p. -/
def pairCount (t p : Int) : List Int → List Int → Nat
  | a :: as2, b :: bs => (if a = t ∧ b = p then 1 else 0) + pairCount t p as2 bs
  | _, _ => 0

/-- Model of the external sklearn confusion_matrix, from its documented
behavior: entry (i, j) counts the samples whose truth is label i and whose
prediction is label j. -/
def confusion_matrix (y_true y_pred : List Int) : List (List Nat) :=
  (cmLabels y_true y_pred).map (fun t =>
    (cmLabels y_true y_pred).map (fun p => pairCount t p y_true y_pred))

/-- Float division as used in the row normalization; division by a zero row
sum (whose numerators are then also zero, each row entry being a count
bounded by the row sum) yields not-a-number, modelled as none. -/
def qdivNaN (x d : ℚ) : Option ℚ :=
  if d = 0 then none else some (x / d)

/-- The row normalization cm.astype(float) / cm.sum(axis=1)[:, np.newaxis]
of plot_confusion_matrix: every entry of a row is divided by that row's
sum. -/
def cmNormalize (cm : List (List Nat)) : List (List (Option ℚ)) :=
  cm.map (fun row => row.map (fun x : Nat => qdivNaN (x : ℚ) (row.sum : ℚ)))

/-- Addition over possibly-NaN values: any NaN summand poisons the sum. -/
def nanAdd (x y : Option ℚ) : Option ℚ :=
  match x, y with
  | some a, some b => some (a + b)
  | _, _ => none

/-- Sum of a list of possibly-NaN values. -/
def nanSum : List (Option ℚ) → Option ℚ
  | [] => some 0
  | x :: xs => nanAdd x (nanSum xs)

/-- Embedding of plot_confusion_matrix as the list of image files it saves,
each paired with the matrix drawn into it (raw counts embedded into the
possibly-NaN value type). -/
def plot_confusion_matrix (y_true y_pred : List Int) (save_dir : String) :
    List (String × List (List (Option ℚ))) :=
  let cm := confusion_matrix y_true y_pred
  [(save_dir ++ "/confusion_matrix_normalized.png", cmNormalize cm),
   (save_dir ++ "/confusion_matrix_raw.png",
     cm.map (fun row => row.map (fun n : Nat => some (n : ℚ))))]

/-- KeyError-style access of the optional auc entry of a metrics record. -/
def getAuc (m : Metrics) : Except String (List ℚ) :=
  match m.auc with
  | some a => .ok a
  | none => .error "KeyError"

/-- One class-index iteration of the plot_metrics_line loop: the per-epoch
precision, recall and F1 series at this class index (and the AUC series
when the first record has an auc entry), every read performed with checked
indexing. -/
def plotLineClass (hist : List Metrics) (first : Metrics) (ci : Nat) :
    Except String (Nat × List ℚ × List ℚ × List ℚ × Option (List ℚ)) := do
  let ps ← mapE (fun m => listIdx m.precision ci) hist
  let rs ← mapE (fun m => listIdx m.recall ci) hist
  let fs ← mapE (fun m => listIdx m.f1 ci) hist
  if first.auc.isSome then do
    let as2 ← mapE (fun m => do listIdx (← getAuc m) ci) hist
    pure (ci, ps, rs, fs, some as2)
  else
    pure (ci, ps, rs, fs, none)

/-- Embedding of plot_metrics_line: reads metrics_history[0] to obtain the
class count (an IndexError on an empty history), then iterates the class
indices. -/
def plot_metrics_line (hist : List Metrics) :
    Except String (List (Nat × List ℚ × List ℚ × List ℚ × Option (List ℚ))) := do
  let first ← listIdx hist 0
  mapE (plotLineClass hist first) (List.range first.precision.length)

/-- Consistency of a metrics history as plot_metrics_line requires it: all
records agree with the first on the per-class sequence lengths, and when
the first record has an auc entry every record has one of that length. -/
def consistentHist : List Metrics → Bool
  | [] => true
  | h :: t => (h :: t).all (fun m =>
      (decide (m.precision.length = h.precision.length) &&
        decide (m.recall.length = h.precision.length) &&
        decide (m.f1.length = h.precision.length)) &&
      (!h.auc.isSome ||
        (m.auc.isSome && decide ((m.auc.getD []).length = h.precision.length))))

theorem check_pred_length (y_true : List Int) (c : Int) :
    (check_pred y_true c).length = y_true.length := by
  simp [check_pred]

theorem check_pred_getD (y_true : List Int) (c : Int) (s : Nat) (h : s < y_true.length) :
    (check_pred y_true c).getD s 0 = (if y_true.getD s 0 = (s : Int) then 1 else 0) := by
  unfold check_pred
  rw [List.getD_eq_getElem?_getD, List.getElem?_map, List.getElem?_range h]
  rfl

/-- C2: the code computes the sample-index comparison, not the class
comparison: at every in-range sample s the result is 1 exactly when
y_true[s] equals s itself, and the result does not depend on the class
argument at all. -/
theorem check_pred_actual_behavior (y_true : List Int) (c c' : Int) (s : Nat)
    (h : s < y_true.length) :
    ((check_pred y_true c).getD s 0 = 1 ↔ y_true.getD s 0 = (s : Int)) ∧
    check_pred y_true c = check_pred y_true c' := by
  refine ⟨?_, rfl⟩
  have hg : y_true.getD s 0 = y_true[s] := by
    rw [List.getD_eq_getElem?_getD, List.getElem?_eq_getElem h]
    rfl
  rw [check_pred_getD y_true c s h, hg]
  split <;> simp [*]

/-- Closed instance of check_pred_actual_behavior at y_true = [5, 1] and
classes 7 and 0, sample 1. -/
theorem check_pred_actual_behavior_witness :
    ((check_pred [5, 1] 7).getD 1 0 = 1 ↔ ([5, 1] : List Int).getD 1 0 = (1 : Int)) ∧
    check_pred [5, 1] 7 = check_pred [5, 1] 0 :=
  check_pred_actual_behavior [5, 1] 7 0 1 (by decide)

/-- C1: the spec requires result[s] = 1 iff y_true[s] = c; the code violates
this: at y_true = [1, 1] with class c = 1, sample 0 has y_true[0] = 1 = c
yet the returned vector is [0, 1], with a 0 at sample 0. -/
theorem check_pred_spec_violation :
    check_pred [1, 1] 1 = [0, 1] ∧ ([1, 1] : List Int).getD 0 0 = (1 : Int) := by
  constructor
  · rfl
  · rfl

theorem mapE_ok_length {α β : Type} (f : α → Except String β) (l : List α)
    (ys : List β) (h : mapE f l = .ok ys) : ys.length = l.length := by
  induction l generalizing ys with
  | nil =>
    simp only [mapE] at h
    cases h
    rfl
  | cons x xs ih =>
    simp only [mapE, bind, Except.bind] at h
    cases hf : f x with
    | error e => rw [hf] at h; exact absurd h (by simp)
    | ok y =>
      rw [hf] at h
      cases hm : mapE f xs with
      | error e => rw [hm] at h; exact absurd h (by simp [bind, Except.bind])
      | ok ys2 =>
        rw [hm] at h
        simp only [bind, Except.bind, pure, Except.pure, Except.ok.injEq] at h
        subst h
        simp [ih ys2 hm]

theorem mapE_ok_of_forall {α β : Type} (f : α → Except String β) (l : List α)
    (h : ∀ x ∈ l, ∃ y, f x = .ok y) : ∃ ys, mapE f l = .ok ys := by
  induction l with
  | nil => exact ⟨[], rfl⟩
  | cons x xs ih =>
    obtain ⟨y, hy⟩ := h x (List.mem_cons_self x xs)
    obtain ⟨ys, hys⟩ := ih (fun z hz => h z (List.mem_cons_of_mem x hz))
    exact ⟨y :: ys, by simp [mapE, hy, hys, bind, Except.bind, pure, Except.pure]⟩

/-- C4: the end-to-end scenario: with y_true = [0,1,2,0,1,2] and
y_pred = [0,1,1,0,2,2] and no score matrix, precision, recall and F1 are
each [1, 1/2, 1/2], of length 3, and no auc entry is produced. -/
theorem calculate_metrics_end_to_end :
    calculate_metrics [0, 1, 2, 0, 1, 2] [0, 1, 1, 0, 2, 2] none none =
      .ok ⟨[1, 1 / 2, 1 / 2], [1, 1 / 2, 1 / 2], [1, 1 / 2, 1 / 2], none⟩ := by
  norm_num [calculate_metrics, precision_recall_fscore_support, precisionAt, recallAt,
    f1At, tpCount, countEq, uniqueVals, List.dedup, List.insertionSort, List.orderedInsert]

/-- C3: the AUC sentinel property fails on the code: with
y_true = [0, 2], class 1 never appears in the ground truth, yet because
check_pred ignores its class argument the degenerate-class guard sees the
non-constant vector [1, 0] and computes a real AUC from score column 1:
the auc entry at index 1 is 1, not the sentinel 0.0. -/
theorem calculate_metrics_auc_sentinel_violation :
    (1 : Int) ∉ ([0, 2] : List Int) ∧
    calculate_metrics [0, 2] [0, 2] (some [[0, 1], [1, 0]]) none =
      .ok ⟨[1, 1], [1, 1], [1, 1], some [0, 1]⟩ := by
  refine ⟨by decide, ?_⟩
  norm_num [calculate_metrics, precision_recall_fscore_support, precisionAt, recallAt,
    f1At, tpCount, countEq, uniqueVals, List.dedup, List.insertionSort, List.orderedInsert,
    calc_auc_list, mapE, check_pred, uniqueCountNat, scoreColumn, listIdx, rocAUC,
    scoresOf, rocPairWeight, Except.map, bind, Except.bind, pure, Except.pure]
  decide

/-- C10: with a score matrix and explicit labels, the auc list has one
entry per distinct ground-truth value while precision, recall and F1 have
one entry per requested label; on y_true = [0] with labels = [0, 1] the
lengths disagree. -/
theorem calculate_metrics_length_mismatch (y_true y_pred : List Int)
    (ys : List (List ℚ)) (ls : List Int) (m : Metrics)
    (h : calculate_metrics y_true y_pred (some ys) (some ls) = .ok m) :
    (m.precision.length = ls.length ∧ m.recall.length = ls.length ∧
      m.f1.length = ls.length ∧
      ∃ a, m.auc = some a ∧ a.length = (uniqueVals y_true).length) ∧
    ∃ m0 : Metrics,
      calculate_metrics [0] [0] (some [[1, 1]]) (some [0, 1]) = .ok m0 ∧
      m0.precision.length ≠ (m0.auc.getD []).length := by
  constructor
  · simp only [calculate_metrics, precision_recall_fscore_support] at h
    cases ha : calc_auc_list y_true ys with
    | error e =>
      rw [ha] at h
      exact absurd h (by simp [Except.map])
    | ok roc =>
      rw [ha] at h
      simp only [Except.map, Except.ok.injEq] at h
      subst h
      refine ⟨by simp, by simp, by simp, roc, rfl, ?_⟩
      have := mapE_ok_length _ _ _ ha
      simpa using this
  · refine ⟨⟨[1, 0], [1, 0], [1, 0], some [0]⟩, ?_, by decide⟩
    norm_num [calculate_metrics, precision_recall_fscore_support, precisionAt, recallAt,
      f1At, tpCount, countEq, uniqueVals, List.dedup, List.insertionSort,
      List.orderedInsert, calc_auc_list, mapE, check_pred, uniqueCountNat, scoreColumn,
      listIdx, rocAUC, scoresOf, rocPairWeight, Except.map, bind, Except.bind, pure,
      Except.pure]

/-- Closed instance of calculate_metrics_length_mismatch at y_true = [0],
y_pred = [0], a one-row score matrix and labels = [0, 1]. -/
theorem calculate_metrics_length_mismatch_witness :
    (([1, 0] : List ℚ).length = ([0, 1] : List Int).length ∧
      ([1, 0] : List ℚ).length = ([0, 1] : List Int).length ∧
      ([1, 0] : List ℚ).length = ([0, 1] : List Int).length ∧
      ∃ a, (some [(0 : ℚ)]) = some a ∧ a.length = (uniqueVals [0]).length) ∧
    ∃ m0 : Metrics,
      calculate_metrics [0] [0] (some [[1, 1]]) (some [0, 1]) = .ok m0 ∧
      m0.precision.length ≠ (m0.auc.getD []).length :=
  calculate_metrics_length_mismatch [0] [0] [[1, 1]] [0, 1]
    ⟨[1, 0], [1, 0], [1, 0], some [0]⟩
    (by norm_num [calculate_metrics, precision_recall_fscore_support, precisionAt,
      recallAt, f1At, tpCount, countEq, uniqueVals, List.dedup, List.insertionSort,
      List.orderedInsert, calc_auc_list, mapE, check_pred, uniqueCountNat, scoreColumn,
      listIdx, rocAUC, scoresOf, rocPairWeight, Except.map, bind, Except.bind, pure,
      Except.pure])

/-- C5: ensure_dir succeeds and leaves the state unchanged when the
directory already exists, and running it a second time after any first run
changes nothing more: the directory exists after one call and after two. -/
theorem ensure_dir_idempotent (fs : List String) (d : String) :
    (os_path_exists fs d = true → ensure_dir fs d = .ok fs) ∧
    ∃ fs2, ensure_dir fs d = .ok fs2 ∧ os_path_exists fs2 d = true ∧
      ensure_dir fs2 d = .ok fs2 := by
  by_cases h : d ∈ fs
  · refine ⟨fun _ => by simp [ensure_dir, os_path_exists, h], fs, ?_, ?_, ?_⟩ <;>
      simp [ensure_dir, os_path_exists, h]
  · refine ⟨fun hex => ?_, d :: fs, ?_, ?_, ?_⟩
    · exact absurd hex (by simp [os_path_exists, h])
    · simp [ensure_dir, os_path_exists, os_makedirs, h]
    · simp [os_path_exists]
    · simp [ensure_dir, os_path_exists]

/-- Closed instance of ensure_dir_idempotent on a state where the plots
directory already exists. -/
theorem ensure_dir_idempotent_witness :
    (os_path_exists ["plots"] "plots" = true → ensure_dir ["plots"] "plots" = .ok ["plots"]) ∧
    ∃ fs2, ensure_dir ["plots"] "plots" = .ok fs2 ∧ os_path_exists fs2 "plots" = true ∧
      ensure_dir fs2 "plots" = .ok fs2 :=
  ensure_dir_idempotent ["plots"] "plots"

/-- C6: the per-class drawing condition fails on the code: with
y_true = [1, 0], class 1 has both a positive sample (index 0) and a
negative sample (index 1), yet no curve at all is drawn, because the
binarization compares y_true[s] with s and yields the constant vector
[0, 0] for every class. -/
theorem plot_roc_curve_skips_valid_class :
    plot_roc_curve_curves [1, 0] [[1, 0], [0, 1]] = .ok [] ∧
    (1 : Int) ∈ ([1, 0] : List Int) ∧ (0 : Int) ∈ ([1, 0] : List Int) := by
  decide

theorem mem_uniqueVals {l : List Int} {x : Int} : x ∈ uniqueVals l ↔ x ∈ l := by
  unfold uniqueVals
  rw [(List.perm_insertionSort _ _).mem_iff, List.mem_dedup]

theorem uniqueVals_nodup (l : List Int) : (uniqueVals l).Nodup := by
  unfold uniqueVals
  exact ((List.perm_insertionSort _ _).nodup_iff).mpr (List.nodup_dedup l)

theorem sum_if_eq_zero (L : List Int) (b : Int) (hb : b ∉ L) :
    (L.map (fun p => if b = p then (1 : Nat) else 0)).sum = 0 := by
  induction L with
  | nil => rfl
  | cons x xs ih =>
    simp only [List.mem_cons, not_or] at hb
    simp [hb.1, ih hb.2]

theorem sum_if_eq_one (L : List Int) (b : Int) (hnd : L.Nodup) (hb : b ∈ L) :
    (L.map (fun p => if b = p then (1 : Nat) else 0)).sum = 1 := by
  induction L with
  | nil => cases hb
  | cons x xs ih =>
    rw [List.nodup_cons] at hnd
    rcases List.mem_cons.mp hb with h | h
    · subst h
      simp [sum_if_eq_zero xs b hnd.1]
    · have hbx : b ≠ x := fun he => hnd.1 (he ▸ h)
      simp [hbx, ih hnd.2 h]

theorem countEq_pos {t : Int} {ts : List Int} (h : t ∈ ts) : 0 < countEq t ts := by
  induction ts with
  | nil => cases h
  | cons x xs ih =>
    rcases List.mem_cons.mp h with hx | hx
    · subst hx
      simp [countEq]
    · exact Nat.lt_of_lt_of_le (ih hx) (Nat.le_add_left _ _)

theorem sum_pairCount (t : Int) (L : List Int) (hnd : L.Nodup) :
    ∀ ts ps : List Int, ts.length = ps.length → (∀ b ∈ ps, b ∈ L) →
      (L.map (fun p => pairCount t p ts ps)).sum = countEq t ts := by
  intro ts
  induction ts with
  | nil =>
    intro ps _ _
    have hz : ∀ p, pairCount t p [] ps = 0 := fun p => by cases ps <;> rfl
    simp [hz, countEq]
  | cons a as2 ih =>
    intro ps hlen hsub
    cases ps with
    | nil => cases hlen
    | cons b bs =>
      have hstep : (L.map (fun p => pairCount t p (a :: as2) (b :: bs))) =
          L.map (fun p => (if a = t ∧ b = p then 1 else 0) + pairCount t p as2 bs) := rfl
      rw [hstep, List.sum_map_add]
      have h2 : (L.map (fun p => pairCount t p as2 bs)).sum = countEq t as2 :=
        ih bs (by simpa using hlen) (fun x hx => hsub x (List.mem_cons_of_mem _ hx))
      have hcount : countEq t (a :: as2) = (if a = t then 1 else 0) + countEq t as2 := rfl
      by_cases ha : a = t
      · have hmap : (L.map (fun p => if a = t ∧ b = p then (1 : Nat) else 0)) =
            L.map (fun p => if b = p then (1 : Nat) else 0) := by
          apply List.map_congr_left
          intro p _
          simp [ha]
        rw [hmap, sum_if_eq_one L b hnd (hsub b (List.mem_cons_self b bs)), h2,
          hcount, if_pos ha]
      · have hmap : (L.map (fun p => if a = t ∧ b = p then (1 : Nat) else 0)) =
            L.map (fun _ => (0 : Nat)) := by
          apply List.map_congr_left
          intro p _
          simp [ha]
        rw [hmap, h2, hcount, if_neg ha]
        simp

theorem nanSum_map_some (l : List ℚ) : nanSum (l.map some) = some l.sum := by
  induction l with
  | nil => rfl
  | cons x xs ih => simp [nanSum, nanAdd, ih]

theorem sum_map_div (l : List ℚ) (S : ℚ) :
    (l.map (fun x => x / S)).sum = l.sum / S := by
  simp only [div_eq_mul_inv]
  rw [List.sum_map_mul_right]
  simp

/-- C7: plot_confusion_matrix writes exactly the two fixed-named image
files into the output directory, whenever every class of the matrix has at
least one ground-truth sample. -/
theorem plot_confusion_matrix_two_files (y_true y_pred : List Int) (d : String)
    (h : ∀ c ∈ cmLabels y_true y_pred, c ∈ y_true) :
    (plot_confusion_matrix y_true y_pred d).map Prod.fst =
      [d ++ "/confusion_matrix_normalized.png", d ++ "/confusion_matrix_raw.png"] ∧
    (plot_confusion_matrix y_true y_pred d).length = 2 :=
  ⟨rfl, rfl⟩

/-- Closed instance of plot_confusion_matrix_two_files at
y_true = y_pred = [0] and directory plots. -/
theorem plot_confusion_matrix_two_files_witness :
    (plot_confusion_matrix [0] [0] "plots").map Prod.fst =
      ["plots" ++ "/confusion_matrix_normalized.png",
        "plots" ++ "/confusion_matrix_raw.png"] ∧
    (plot_confusion_matrix [0] [0] "plots").length = 2 :=
  plot_confusion_matrix_two_files [0] [0] "plots" (by decide)

theorem cmNormalize_getD (cm : List (List Nat)) (i : Nat) (hi : i < cm.length) :
    (cmNormalize cm).getD i [] =
      (cm.getD i []).map (fun x : Nat => qdivNaN (x : ℚ) ((cm.getD i []).sum : ℚ)) := by
  unfold cmNormalize
  rw [List.getD_eq_getElem?_getD, List.getElem?_map, List.getElem?_eq_getElem hi,
    List.getD_eq_getElem?_getD cm, List.getElem?_eq_getElem hi]
  rfl

/-- C8: the normalized confusion matrix divides each raw-count row entry by
that row's sum; when every matrix class appears in the ground truth every
normalized row sums to exactly 1; and a row whose sum is zero consists
entirely of not-a-number entries, no error being raised and no other value
substituted. -/
theorem plot_confusion_matrix_normalization (y_true y_pred : List Int)
    (hlen : y_true.length = y_pred.length) :
    (∀ i j, i < (confusion_matrix y_true y_pred).length →
      j < ((confusion_matrix y_true y_pred).getD i []).length →
      ((cmNormalize (confusion_matrix y_true y_pred)).getD i []).getD j none =
        qdivNaN (((confusion_matrix y_true y_pred).getD i []).getD j 0 : ℚ)
          (((confusion_matrix y_true y_pred).getD i []).sum : ℚ)) ∧
    ((∀ c ∈ cmLabels y_true y_pred, c ∈ y_true) →
      ∀ row ∈ cmNormalize (confusion_matrix y_true y_pred), nanSum row = some 1) ∧
    (∀ i, i < (confusion_matrix y_true y_pred).length →
      ((confusion_matrix y_true y_pred).getD i []).sum = 0 →
      ∀ x ∈ (cmNormalize (confusion_matrix y_true y_pred)).getD i [], x = none) := by
  refine ⟨?_, ?_, ?_⟩
  · intro i j hi hj
    rw [cmNormalize_getD _ i hi, List.getD_eq_getElem?_getD, List.getElem?_map,
      List.getElem?_eq_getElem hj, List.getD_eq_getElem?_getD _ j,
      List.getElem?_eq_getElem hj]
    rfl
  · intro hcls row hrow
    obtain ⟨row0, hrow0, hmapped⟩ := List.mem_map.mp hrow
    obtain ⟨t, ht, hrow0_eq⟩ := List.mem_map.mp hrow0
    have hnd := uniqueVals_nodup (y_true ++ y_pred)
    have hsub : ∀ b ∈ y_pred, b ∈ cmLabels y_true y_pred := fun b hb =>
      mem_uniqueVals.mpr (List.mem_append.mpr (Or.inr hb))
    have hsum : row0.sum = countEq t y_true := by
      rw [← hrow0_eq]
      exact sum_pairCount t (cmLabels y_true y_pred) hnd y_true y_pred hlen hsub
    have hpos : 0 < row0.sum := hsum ▸ countEq_pos (hcls t ht)
    have hS : ((row0.sum : ℚ)) ≠ 0 :=
      Nat.cast_ne_zero.mpr (Nat.pos_iff_ne_zero.mp hpos)
    have hrow_eq : row = (row0.map (fun x : ℕ => ((x : ℚ) / (row0.sum : ℚ)))).map some := by
      rw [← hmapped, List.map_map]
      apply List.map_congr_left
      intro x _
      simp only [Function.comp_apply]
      unfold qdivNaN
      rw [if_neg hS]
    rw [hrow_eq, nanSum_map_some]
    have hcast : (row0.map (fun x : ℕ => ((x : ℚ) / (row0.sum : ℚ)))) =
        (row0.map (fun x : ℕ => (x : ℚ))).map (fun y => y / (row0.sum : ℚ)) := by
      rw [List.map_map]
      rfl
    have hcs : (row0.map (fun x : ℕ => (x : ℚ))).sum = (row0.sum : ℚ) :=
      (Nat.cast_list_sum row0).symm
    rw [hcast, sum_map_div, hcs, div_self hS]
  · intro i hi hzero x hx
    rw [cmNormalize_getD _ i hi] at hx
    obtain ⟨y, _, hxy⟩ := List.mem_map.mp hx
    rw [hzero] at hxy
    simpa [qdivNaN] using hxy.symm

/-- Closed instance of plot_confusion_matrix_normalization at
y_true = y_pred = [0, 1]. -/
theorem plot_confusion_matrix_normalization_witness :
    (∀ i j, i < (confusion_matrix [0, 1] [0, 1]).length →
      j < ((confusion_matrix [0, 1] [0, 1]).getD i []).length →
      ((cmNormalize (confusion_matrix [0, 1] [0, 1])).getD i []).getD j none =
        qdivNaN (((confusion_matrix [0, 1] [0, 1]).getD i []).getD j 0 : ℚ)
          (((confusion_matrix [0, 1] [0, 1]).getD i []).sum : ℚ)) ∧
    ((∀ c ∈ cmLabels [0, 1] [0, 1], c ∈ ([0, 1] : List Int)) →
      ∀ row ∈ cmNormalize (confusion_matrix [0, 1] [0, 1]), nanSum row = some 1) ∧
    (∀ i, i < (confusion_matrix [0, 1] [0, 1]).length →
      ((confusion_matrix [0, 1] [0, 1]).getD i []).sum = 0 →
      ∀ x ∈ (cmNormalize (confusion_matrix [0, 1] [0, 1])).getD i [], x = none) :=
  plot_confusion_matrix_normalization [0, 1] [0, 1] rfl

theorem listIdx_lt {α : Type} (l : List α) (i : Nat) (h : i < l.length) :
    ∃ y, listIdx l i = .ok y := by
  unfold listIdx
  rw [List.get?_eq_getElem?, List.getElem?_eq_getElem h]
  exact ⟨_, rfl⟩

theorem consistentHist_spec {first : Metrics} {rest : List Metrics}
    (hcons : consistentHist (first :: rest) = true) :
    ∀ m ∈ first :: rest,
      m.precision.length = first.precision.length ∧
      m.recall.length = first.precision.length ∧
      m.f1.length = first.precision.length ∧
      (first.auc.isSome = true →
        m.auc.isSome = true ∧ (m.auc.getD []).length = first.precision.length) := by
  intro m hm
  have h := (List.all_eq_true.mp hcons) m hm
  simp only [Bool.and_eq_true, Bool.or_eq_true, Bool.not_eq_true',
    decide_eq_true_eq] at h
  refine ⟨h.1.1.1, h.1.1.2, h.1.2, fun hsome => ?_⟩
  rcases h.2 with h2 | h2
  · rw [hsome] at h2
    cases h2
  · exact ⟨h2.1, h2.2⟩

theorem plotLineClass_ok (first : Metrics) (rest : List Metrics) (ci : Nat)
    (hci : ci < first.precision.length)
    (hcons : consistentHist (first :: rest) = true) :
    ∃ y, plotLineClass (first :: rest) first ci = .ok y := by
  have hc := consistentHist_spec hcons
  obtain ⟨ps, hps⟩ := mapE_ok_of_forall (fun m => listIdx m.precision ci) (first :: rest)
    (fun m hm => listIdx_lt _ ci ((hc m hm).1.symm ▸ hci))
  obtain ⟨rs, hrs⟩ := mapE_ok_of_forall (fun m => listIdx m.recall ci) (first :: rest)
    (fun m hm => listIdx_lt _ ci ((hc m hm).2.1.symm ▸ hci))
  obtain ⟨fs, hfs⟩ := mapE_ok_of_forall (fun m => listIdx m.f1 ci) (first :: rest)
    (fun m hm => listIdx_lt _ ci ((hc m hm).2.2.1.symm ▸ hci))
  unfold plotLineClass
  rw [hps, hrs, hfs]
  cases hauc : first.auc.isSome with
  | false =>
      exact ⟨(ci, ps, rs, fs, none), rfl⟩
  | true =>
      obtain ⟨as2, has2⟩ := mapE_ok_of_forall
        (fun m => do listIdx (← getAuc m) ci) (first :: rest) (fun m hm => by
          obtain ⟨hsome, hlen2⟩ := (hc m hm).2.2.2 hauc
          cases ha : m.auc with
          | none => rw [ha] at hsome; cases hsome
          | some am =>
              have hga : getAuc m = .ok am := by unfold getAuc; rw [ha]
              have hl : ci < am.length := by
                rw [ha] at hlen2
                simpa using hlen2.symm ▸ hci
              obtain ⟨y, hy⟩ := listIdx_lt am ci hl
              exact ⟨y, by
                show (getAuc m).bind (fun a => listIdx a ci) = .ok y
                rw [hga]
                simpa [Except.bind] using hy⟩)
      rw [has2]
      exact ⟨(ci, ps, rs, fs, some as2), rfl⟩

/-- C9: plot_metrics_line fails with an IndexError on the empty history,
reading metrics_history[0], and on any non-empty history whose per-class
sequence lengths are consistent every index access is in bounds and the
call succeeds. -/
theorem plot_metrics_line_bounds (hist : List Metrics) (hne : hist ≠ [])
    (hcons : consistentHist hist = true) :
    plot_metrics_line ([] : List Metrics) = .error "IndexError" ∧
    ∃ out, plot_metrics_line hist = .ok out := by
  refine ⟨rfl, ?_⟩
  obtain ⟨first, rest, rfl⟩ : ∃ f r, hist = f :: r := by
    cases hist with
    | nil => exact absurd rfl hne
    | cons f r => exact ⟨f, r, rfl⟩
  have hred : plot_metrics_line (first :: rest) =
      mapE (plotLineClass (first :: rest) first)
        (List.range first.precision.length) := rfl
  rw [hred]
  exact mapE_ok_of_forall _ _ (fun ci hci =>
    plotLineClass_ok first rest ci (List.mem_range.mp hci) hcons)

/-- Closed instance of plot_metrics_line_bounds on a one-record history
with one class and no auc entry. -/
theorem plot_metrics_line_bounds_witness :
    plot_metrics_line ([] : List Metrics) = .error "IndexError" ∧
    ∃ out, plot_metrics_line [⟨[1], [1], [1], none⟩] = .ok out :=
  plot_metrics_line_bounds [⟨[1], [1], [1], none⟩] (by decide) (by decide)

end MedViT
